import Mathlib

/-!
Verification of the `ispeakregex` repository: a shallow embedding of
`politer.py` (the pushback iterator), the `TextList`/`InlineList` prose
renderer and the flattened-stream translation dispatcher of
`speakregex.py`, and the tree nodes of `tree.py`, together with theorems
settling the specification claims.
-/

/-! ## Politer (`politer.py`)

A `Politer` wraps a forward-only generator.  We model the not yet
consumed generator items as `source`, the internal deque `self._values`
as the list `values` (front = next to return) and `self._previous` as an
`Option` (Python `None` = `none`; claim values are opaque tokens, never
`None`).
-/

structure Politer (α : Type) where
  source : List α
  values : List α
  previous : Option α
  deriving DecidableEq

namespace Politer

/-- `__init__`: wraps an iterable; the deque starts empty, `_previous` is `None`. -/
def ofIterable {α : Type} (l : List α) : Politer α := ⟨l, [], none⟩

/-- `__next__`: pop the front of `_values` if nonempty, else pull the
generator; record the returned value in `_previous`.  `none` models the
`StopIteration` of an exhausted politer. -/
def pull {α : Type} : Politer α → Option (α × Politer α)
  | ⟨src, v :: rest, _⟩ => some (v, ⟨src, rest, some v⟩)
  | ⟨src, [], _⟩ =>
    match src with
    | [] => none
    | v :: rest => some (v, ⟨rest, [], some v⟩)

/-- `send(*values)`: `self._values.extendleft(values)`.  `extendleft`
appends each argument to the left in turn, so the arguments end up at
the front of the deque in reversed order (the docstring's
last-in-first-out). -/
def send {α : Type} (vs : List α) (st : Politer α) : Politer α :=
  ⟨st.source, vs.reverse ++ st.values, st.previous⟩

/-- `prev()`: rewinds exactly one value; raises
`StopIteration('politer.prev() is not repeatable')` when `_previous` is
`None`. -/
def prev {α : Type} (st : Politer α) : Except String (Politer α) :=
  match st.previous with
  | none => .error "politer.prev() is not repeatable"
  | some v => .ok ⟨st.source, v :: st.values, none⟩

/-- The values still obtainable from the politer: the buffered deque
followed by the unconsumed generator items. -/
def obtainable {α : Type} (st : Politer α) : List α := st.values ++ st.source

/-- `_dump()`: `self._values.extend(self._generator)`. -/
def dump {α : Type} (st : Politer α) : Politer α := ⟨[], st.values ++ st.source, st.previous⟩

/-- `__len__`: dumps the generator, then reports the deque's length. -/
def len {α : Type} (st : Politer α) : Nat × Politer α := ((dump st).values.length, dump st)

/-- `n` successive `__next__` calls, collecting the returned values
(stopping early if the politer is exhausted). -/
def pullN {α : Type} : Nat → Politer α → List α × Politer α
  | 0, st => ([], st)
  | n + 1, st =>
    match pull st with
    | none => ([], st)
    | some (x, st') =>
      let r := pullN n st'
      (x :: r.1, r.2)

/-- The run of `takewhile(self, func)` (a generator) drained to
completion.  `itertools.takewhile(func, self)` pulls via `__next__`
until `func` fails (consuming the failing item) or the politer is
exhausted; afterwards the source calls `self.prev()` — pushing back the
failing item (or, when exhausted, whatever `_previous` holds, raising if
it is `None`) — and restores `_previous` to the last yielded item
(`saved`). -/
def takewhileLoop {α : Type} (p : α → Bool) :
    Politer α → Option α → List α → Except String (List α × Politer α)
  | ⟨src, v :: rest, _⟩, saved, acc =>
    if p v then takewhileLoop p ⟨src, rest, some v⟩ (some v) (acc ++ [v])
    else .ok (acc, ⟨src, v :: rest, saved⟩)
  | ⟨src, [], pv⟩, saved, acc =>
    match src with
    | v :: rest =>
      if p v then takewhileLoop p ⟨rest, [], some v⟩ (some v) (acc ++ [v])
      else .ok (acc, ⟨rest, [v], saved⟩)
    | [] =>
      match pv with
      | none => .error "politer.prev() is not repeatable"
      | some v => .ok (acc, ⟨[], [v], saved⟩)
  termination_by st _ _ => st.values.length + st.source.length

/-- `takewhile(func)`: as `itertools`, but preserves the failing element. -/
def takewhile {α : Type} (st : Politer α) (p : α → Bool) :
    Except String (List α × Politer α) :=
  takewhileLoop p st none []

/-- `takeuntil(func)`: opposite of `takewhile`. -/
def takeuntil {α : Type} (st : Politer α) (p : α → Bool) :
    Except String (List α × Politer α) :=
  takewhile st (fun x => ! p x)

end Politer

/-- Opaque test tokens for the spec's mixed-value examples: Python ints
and strings. -/
inductive Val : Type
  | int : Int → Val
  | str : String → Val
  deriving DecidableEq

/-- The test predicate of the spec's `takeUntil(isLetter)` example. -/
def isLetter : Val → Bool
  | .str _ => true
  | .int _ => false

/-! ## TextList / InlineList (`speakregex.py`)

A translation fragment is either a plain string, a `TextList` (intro,
outro, subordinating and coordinating conjunction over a stream of
fragments), or an `InlineList` (whose items in the source are always
strings, produced by `quoted_chars`).  The source's lists are lazy
generators over politers; we model their items as fully materialised
lists, which coincides with the source whenever a list is rendered to
completion (the case in every claim considered here). -/

inductive Frag : Type
  | str : String → Frag
  | text : (intro outro subord coord : String) → (items : List Frag) → Frag
  | inl : (intro outro subord coord : String) → (items : List String) → Frag

/-- `concat_if(a, b)`: empty when the first argument is falsy, otherwise
the concatenation. -/
def concatIf (a b : String) : String := if a = "" then "" else a ++ b

/-- `quoted(string)`. -/
def pyQuoted (s : String) : String := "\"" ++ s ++ "\""

/-- Accumulating splitter for `pySplit`: `cur` holds the current word's
characters in reverse. -/
def wordsGo : List Char → List Char → List String
  | [], cur => if cur.isEmpty then [] else [String.mk cur.reverse]
  | c :: cs, cur =>
    if c = ' ' then
      (if cur.isEmpty then wordsGo cs [] else String.mk cur.reverse :: wordsGo cs [])
    else wordsGo cs (c :: cur)

/-- `str.split()` with no argument: split on whitespace runs, dropping
empty chunks (the strings produced here only ever contain spaces). -/
def pySplit (s : String) : List String := wordsGo s.data []

/-- Greedy line filling of `textwrap.TextWrapper.wrap`: `cur` is the
line built so far (indentation included); a word is appended while the
line stays within `width`, otherwise a new line starts with the
subsequent indent `si`.  (`break_long_words` never fires on this
program's short words and is not modelled.) -/
def wrapGo (width : Nat) (si : String) (cur : String) : List String → List String
  | [] => [cur]
  | w :: rest =>
    if cur.length + 1 + w.length ≤ width then wrapGo width si (cur ++ " " ++ w) rest
    else cur :: wrapGo width si (si ++ w) rest

/-- `textwrap.TextWrapper(width := 70).wrap` for this program's
single-space-separated text: empty or whitespace-only text wraps to no
lines at all. -/
def pyWrap (width : Nat) (ii si : String) (text : String) : List String :=
  match pySplit text with
  | [] => []
  | w :: rest => wrapGo width si (ii ++ w) rest

/-- `TextList._clean` at a given indent: the wrapper's
`initial_indent` is `indent` spaces and `subsequent_indent` is
`indent + 5` spaces (`TextList.indent` setter). -/
def clean (indent : Nat) (line : String) : List String :=
  pyWrap 70 (String.mk (List.replicate indent ' ')) (String.mk (List.replicate (indent + 5) ' ')) line

/-- `TextList.collapsible`: true when the list is empty, when its first
item is a nested list that is itself collapsible (`InlineList`s always
are), or when the list holds exactly one string. -/
def collapsibleL : List Frag → Bool
  | [] => true
  | f :: rest =>
    match f with
    | .text _ _ _ _ sub => collapsibleL sub
    | .inl _ _ _ _ _ => true
    | .str _ => rest.isEmpty

/-- `InlineList.collapse` (the `[]` case is unreachable in the source:
it would raise an uncaught `IndexError`; no claim touches it). -/
def collapseInline (intro outro coord : String) (items : List String) : String :=
  let intro' := concatIf intro " "
  let coord' := concatIf coord " "
  match items with
  | [] => ""
  | [a] => intro' ++ a ++ outro
  | [a, b] => intro' ++ a ++ " " ++ coord' ++ b ++ outro
  | a :: b :: c :: rest =>
    intro' ++ String.intercalate ", " ((a :: b :: c :: rest).dropLast) ++ " " ++ coord' ++
      ((a :: b :: c :: rest).getLastD "") ++ outro

mutual

/-- `TextList.collapse`: the `IndexError` branch of the source returns
`""` for an empty list; otherwise the intro (space-suffixed when
nonempty), the first item's collapsed text, and the outro. -/
def collapseL (intro outro : String) : List Frag → String
  | [] => ""
  | f :: _ => concatIf intro " " ++ collapseF f ++ outro

/-- Collapsing one item: nested lists collapse with their own intro and
outro. -/
def collapseF : Frag → String
  | .str s => s
  | .text i o _ _ sub => collapseL i o sub
  | .inl i o _ c its => collapseInline i o c its

end

mutual

/-- `TextList._make_list`, run to completion at a given indent.
Collapsible lists yield their collapsed text; everything else is
rendered by `renderBody`. -/
def renderL (indent : Nat) (intro outro subord coord : String) (items : List Frag) :
    List String :=
  if collapsibleL items then [collapseL intro outro items]
  else renderBody indent intro outro subord coord items
  termination_by (sizeOf items, 1)

/-- The non-collapsible body of `_make_list`: a nonempty intro is
emitted with a `":"` terminator, the indent grows by 2, and each item
is bulleted: a single remaining item carries the outro, otherwise the
first item ends with a comma, middle items are prefixed with the
subordinating conjunction and end with commas, and the last item is
prefixed with the coordinating conjunction (falling back to the
subordinating one) and carries the outro.  (The `[]` arm is
unreachable: an empty list is collapsible.) -/
def renderBody (indent : Nat) (intro outro subord coord : String) :
    List Frag → List String
  | [] => if intro ≠ "" then clean indent (intro ++ ":") else []
  | [f] =>
    (if intro ≠ "" then clean indent (intro ++ ":") else []) ++
      renderBullet (indent + 2) "" outro f
  | f :: rest =>
    (if intro ≠ "" then clean indent (intro ++ ":") else []) ++
      renderBullet (indent + 2) "" "," f ++
      renderTail (indent + 2) (concatIf subord " ")
        (if concatIf coord " " = "" then concatIf subord " " else concatIf coord " ")
        outro rest
  termination_by items => (sizeOf items, 0)

/-- The loop of `_make_list` over `popped()` (every remaining item but
the last, comma-suffixed) followed by the `pop()`ped final item. -/
def renderTail (indent : Nat) (subord' lastPfx outro : String) : List Frag → List String
  | [] => []
  | [f] => renderBullet indent lastPfx outro f
  | f :: rest => renderBullet indent subord' "," f ++ renderTail indent subord' lastPfx outro rest
  termination_by l => (sizeOf l, 0)

/-- `TextList._bullet`: a non-collapsible nested list is re-rendered at
the parent's indent with `"* " ++ prefix` spliced before its intro and
the suffix after its outro; anything else is collapsed to a string and
wrapped as one bulleted line. -/
def renderBullet (indent : Nat) (pfx sfx : String) : Frag → List String
  | .text i o sb c sub =>
    if collapsibleL sub then clean indent ("* " ++ pfx ++ collapseL i o sub ++ sfx)
    else renderL indent ("* " ++ pfx ++ i) (o ++ sfx) sb c sub
  | .inl i o _ c its => clean indent ("* " ++ pfx ++ collapseInline i o c its ++ sfx)
  | .str s => clean indent ("* " ++ pfx ++ s ++ sfx)
  termination_by f => (sizeOf f, 0)

end

/-- `'\n'.join`. -/
def joinLines : List String → String
  | [] => ""
  | [l] => l
  | l :: rest => l ++ "\n" ++ joinLines rest

/-- `TextList.__str__`: collapsible lists are collapsed and wrapped at
indent 0; otherwise the `_make_list` lines are joined with newlines. -/
def strTL (intro outro subord coord : String) (items : List Frag) : String :=
  if collapsibleL items then joinLines (clean 0 (collapseL intro outro items))
  else joinLines (renderL 0 intro outro subord coord items)

/-- The amended claim's collapsibility condition, stated in the spec's
own terms: an empty list, a first item that is a nested list and itself
collapsible (an `InlineList` always is), or exactly one leaf string. -/
def collapsibleSpec : List Frag → Prop
  | [] => True
  | .str _ :: rest => rest = []
  | .text _ _ _ _ sub :: _ => collapsibleL sub = true
  | .inl _ _ _ _ _ :: _ => True

/-! ## The translation dispatcher (`speakregex.py`)

The flattened parse-tree stream is a list of element lines (strings);
`translate` is modelled by `translateOne` (run the generator up to its
next yield) and `translateGroup` (drain it), with a fuel argument for
termination — `send` can grow the stream (`regex_not_literal`), so the
list length alone does not decrease.  The source's sub-`TextList`s are
lazy; we translate each subgroup eagerly, which agrees with the source
whenever every fragment list is rendered to completion before the outer
translation advances (the case in the claims below).  The source runs
on pre-PEP-479 Python: `end_grouping`'s `StopIteration` terminates the
current `translate` generator, modelled by the `none` result of
`translateOne`. -/

/-- The `special_characters` dictionary. -/
def specialCharacters : String → Option String
  | "7" => some "the alert character"
  | "8" => some "a backspace"
  | "9" => some "a tab character"
  | "10" => some "a newline"
  | "32" => some "a space"
  | "34" => some "a quotation mark"
  | "92" => some "a backslash"
  | _ => none

/-- The `unusual_characters` dictionary. -/
def unusualCharacters : String → Option String
  | "36" => some "a dollar sign"
  | "39" => some "an apostrophe"
  | "40" => some "a left parenthesis"
  | "41" => some "a right parenthesis"
  | "44" => some "a comma"
  | "59" => some "a semicolon"
  | "60" => some "a less than sign"
  | "61" => some "an equals sign"
  | "62" => some "a greater than sign"
  | "95" => some "an underscore"
  | "124" => some "a vertical bar"
  | _ => none

/-- The `categories` dictionary. -/
def categories : String → Option String
  | "category_word" => some "any alphanumeric character or underscore"
  | "category_space" => some "any whitespace character"
  | "category_not_space" => some "any non-whitespace character"
  | "category_not_word" => some "any non-alphanumeric character"
  | "category_digit" => some "any digit"
  | "category_not_digit" => some "any non-digit character"
  | _ => none

/-- `categories.values()`. -/
def categoryValues : List String :=
  ["any alphanumeric character or underscore", "any whitespace character",
   "any non-whitespace character", "any non-alphanumeric character",
   "any digit", "any non-digit character"]

/-- `category_complements`: built in the source by a comprehension over
`opposed_categories` (word, space, digit mapped to their negations),
then updated with the inverse pairs, so all six phrases are keys. -/
def categoryComplements : String → Option String
  | "any alphanumeric character or underscore" => some "any non-alphanumeric character"
  | "any whitespace character" => some "any non-whitespace character"
  | "any digit" => some "any non-digit character"
  | "any non-alphanumeric character" => some "any alphanumeric character or underscore"
  | "any non-whitespace character" => some "any whitespace character"
  | "any non-digit character" => some "any digit"
  | _ => none

/-- The `locations` dictionary. -/
def locations : String → Option String
  | "at_beginning" => some "the beginning of a line"
  | "at_end" => some "the end of the line"
  | "at_boundary" => some "the beginning or end of a word"
  | "at_non_boundary" => some "(if not at the beginning or end of a word)"
  | "at_beginning_string" => some "the beginning of the string"
  | "at_end_string" => some "the end of the string"
  | _ => none

/-- `max_match = 2 << 15`: the sentinel threshold for an effectively
unbounded repeat. -/
def maxMatch : Nat := 2 <<< 15

/-- `int()` on the nonnegative decimal lexemes of a parse trace
(`none` models the `ValueError` on anything else). -/
def pyInt (s : String) : Option Nat :=
  if s.data ≠ [] ∧ s.data.all Char.isDigit then
    some (s.data.foldl (fun n c => n * 10 + (c.toNat - 48)) 0)
  else none

/-- `lookup_char(text_ordinal, checkdicts, longform)`. -/
def lookupChar (textOrdinal : String) (checkdicts longform : Bool) : Except String String :=
  let dictHit : Option String :=
    if checkdicts then
      match specialCharacters textOrdinal with
      | some p => some p
      | none => unusualCharacters textOrdinal
    else none
  match dictHit with
  | some p => .ok p
  | none =>
    match pyInt textOrdinal with
    | none => .error "ValueError"
    | some n =>
      let c := String.mk [Char.ofNat n]
      if longform then .ok ("the character " ++ pyQuoted c) else .ok c

/-- `quoted_chars(ordinals)` without concatenation: one quoted
character per ordinal. -/
def quotedCharsList : List String → Except String (List String)
  | [] => .ok []
  | o :: rest => do
    let c ← lookupChar o false false
    let cs ← quotedCharsList rest
    .ok (pyQuoted c :: cs)

/-- The bare characters of `quoted_chars(ordinals, concatenate=True)`. -/
def charsConcat : List String → Except String String
  | [] => .ok ""
  | o :: rest => do
    let c ← lookupChar o false false
    let cs ← charsConcat rest
    .ok (c ++ cs)

/-- `quoted_chars(ordinals, concatenate=True)`. -/
def quotedCharsConcat (ordinals : List String) : Except String String := do
  let s ← charsConcat ordinals
  .ok (pyQuoted s)

/-- `InlineList.__str__`: always collapsible, so the collapse wrapped
at indent 0 and joined. -/
def strInline (intro outro coord : String) (items : List String) : String :=
  joinLines (clean 0 (collapseInline intro outro coord items))

/-- `collect_literals(tree)`: consume consecutive plain `literal`
elements, stopping at (and pushing back) the first element that is not
a non-special literal.  Returns the collected ordinals and the
remaining stream. -/
def collectLiterals : List String → List String × List String
  | [] => ([], [])
  | item :: rest =>
    let lexemes := pySplit item
    if lexemes.length < 2 ∨ lexemes.getD 0 "" ≠ "literal" ∨
        (specialCharacters (lexemes.getD 1 "")).isSome then
      ([], item :: rest)
    else
      let r := collectLiterals rest
      ((lexemes.getD 1 "") :: r.1, r.2)

/-- `regex_literal(lexemes, tree, delegate)`. -/
def regexLiteral (lexemes : List String) (tree : List String) (delegate : Option String) :
    Except String (Frag × List String) :=
  let first := lexemes.getD 1 ""
  if (specialCharacters first).isSome then do
    let s ← lookupChar first true true
    .ok (.str s, tree)
  else
    let collected := collectLiterals tree
    let literals := first :: collected.1
    if literals.length = 1 then do
      let s ← lookupChar first true true
      .ok (.str s, collected.2)
    else if delegate = some "set" then do
      let cs ← quotedCharsList literals
      .ok (.str ("a " ++ strInline "" "" "or" cs ++ " character"), collected.2)
    else do
      let c ← quotedCharsConcat literals
      .ok (.str ("the characters " ++ c), collected.2)

/-- `regex_category(lexemes, tree, delegate)`. -/
def regexCategory (lexemes : List String) (tree : List String) :
    Except String (Frag × List String) :=
  let catType := lexemes.getD 1 ""
  .ok (.str ((categories catType).getD ("an unknown category: " ++ catType)), tree)

/-- `regex_groupref(lexemes, tree, delegate)`. -/
def regexGroupref (lexemes : List String) (tree : List String) :
    Except String (Frag × List String) :=
  .ok (.str ("subgroup #" ++ lexemes.getD 1 "" ++ " again"), tree)

/-- `regex_at(lexemes, tree, delegate)`. -/
def regexAt (lexemes : List String) (tree : List String) :
    Except String (Frag × List String) :=
  let location := lexemes.getD 1 ""
  .ok (.str ((locations location).getD ("an unknown location: " ++ location)), tree)

/-- The first maximal digit run in a string:
`re.findall(r'[0-9]+', lexeme)[0]` (`none` when `findall` returns no
match and the `[0]` raises `IndexError`). -/
def firstDigitRunGo : List Char → Option String
  | [] => none
  | c :: cs =>
    if c.isDigit then some (String.mk (c :: cs.takeWhile Char.isDigit))
    else firstDigitRunGo cs

/-- See `firstDigitRunGo`. -/
def firstDigitRun (s : String) : Option String := firstDigitRunGo s.data

/-- `regex_range(lexemes, tree, delegate)`. -/
def regexRange (lexemes : List String) (tree : List String) :
    Except String (Frag × List String) :=
  match lexemes with
  | _ :: l1 :: l2 :: _ =>
    match firstDigitRun l1, firstDigitRun l2 with
    | some o1, some o2 => do
      let qs ← quotedCharsList [o1, o2]
      .ok (.str ("a character between " ++ qs.getD 0 "" ++ " and " ++ qs.getD 1 ""), tree)
    | _, _ => .error "IndexError"
  | _ => .error "IndexError"

/-- `unexpected_start_grouping(lexemes, tree, delegate)`: scan forward
to the first `end_grouping` element, collect the skipped elements,
consume that end marker, push the collected elements back with
`tree.send(*elements)` — which, being `extendleft`, REVERSES them — and
return the warning fragment. -/
def unexpectedStartGrouping (tree : List String) : Frag × List String :=
  let elements := tree.takeWhile (fun i => i ≠ "end_grouping 0")
  let rest := (tree.dropWhile (fun i => i ≠ "end_grouping 0")).drop 1
  (.str "(warning, some elements may not appear correctly grouped)", elements.reverse ++ rest)

mutual

/-- One step of the `translate` generator: `.ok (none, rest)` when the
stream is exhausted or an `end_grouping` element stopped this level
(the element is consumed), `.ok (some f, rest)` when one fragment was
yielded.  The dispatch mirrors the `translation` dictionary; an unknown
kind yields the fallback fragment and the walk continues. -/
def translateOne : Nat → Option String → List String → Except String (Option Frag × List String)
  | 0, _, _ => .error "insufficient fuel"
  | _ + 1, _, [] => .ok (none, [])
  | n + 1, delegate, item :: rest =>
    match pySplit item with
    | [] => .error "IndexError"
    | w :: _ =>
      if w = "end_grouping" then .ok (none, rest)
      else if w = "max_repeat" ∨ w = "min_repeat" then do
        let r ← regexRepeat n (pySplit item) rest delegate
        .ok (some r.1, r.2)
      else if w = "literal" then do
        let r ← regexLiteral (pySplit item) rest delegate
        .ok (some r.1, r.2)
      else if w = "not_literal" then do
        let r ← regexNotLiteral n (pySplit item) rest delegate
        .ok (some r.1, r.2)
      else if w = "in" then do
        let r ← regexIn n (pySplit item) rest delegate
        .ok (some r.1, r.2)
      else if w = "category" then do
        let r ← regexCategory (pySplit item) rest
        .ok (some r.1, r.2)
      else if w = "start_grouping" then
        let r := unexpectedStartGrouping rest
        .ok (some r.1, r.2)
      else if w = "subpattern" then do
        let r ← regexSubpattern n (pySplit item) rest delegate
        .ok (some r.1, r.2)
      else if w = "groupref" then do
        let r ← regexGroupref (pySplit item) rest
        .ok (some r.1, r.2)
      else if w = "any" then .ok (some (.str "any character"), rest)
      else if w = "assert" ∨ w = "assert_not" then do
        let r ← regexAssert n (pySplit item) rest delegate
        .ok (some r.1, r.2)
      else if w = "at" then do
        let r ← regexAt (pySplit item) rest
        .ok (some r.1, r.2)
      else if w = "branch" ∨ w = "or" then do
        let r ← regexBranch n (pySplit item) rest delegate
        .ok (some r.1, r.2)
      else if w = "range" then do
        let r ← regexRange (pySplit item) rest
        .ok (some r.1, r.2)
      else if w = "groupref_exists" then do
        let r ← regexGrouprefExists n (pySplit item) rest delegate
        .ok (some r.1, r.2)
      else .ok (some (.str ("something I don't understand: " ++ item)), rest)

/-- A `translate` politer drained to completion: the fragments yielded
up to exhaustion or the `end_grouping` that stops this level, together
with the remaining stream. -/
def translateGroup : Nat → Option String → List String → Except String (List Frag × List String)
  | 0, _, _ => .error "insufficient fuel"
  | n + 1, delegate, tree => do
    let r ← translateOne n delegate tree
    match r.1 with
    | none => .ok ([], r.2)
    | some f => do
      let r2 ← translateGroup n delegate r.2
      .ok (f :: r2.1, r2.2)

/-- `regex_repeat(lexemes, tree, delegate)`: consume the group's start
marker, parse min and max, and either collapse (`min == max == 1`:
return `next(subset)` — exactly one fragment, the rest of the group and
its end marker staying in the stream) or wrap the fully translated
group in a `TextList` with the computed lead-in. -/
def regexRepeat : Nat → List String → List String → Option String →
    Except String (Frag × List String)
  | 0, _, _, _ => .error "insufficient fuel"
  | n + 1, lexemes, "start_grouping 0" :: r, _ =>
    match pyInt (lexemes.getD 1 "") with
    | none => .error "ValueError"
    | some mn =>
      match pyInt (lexemes.getD 2 "") with
      | none => .error "ValueError"
      | some mx =>
        let greed := if lexemes.getD 0 "" = "min_repeat" then " (non-greedy)" else ""
        if mn = mx ∧ mn = 1 then
          match translateOne n none r with
          | .error e => .error e
          | .ok o =>
            match o.1 with
            | some f => .ok (f, o.2)
            | none => .error "StopIteration"
        else
          let leadin :=
            if mn = mx then toString mn ++ " occurrences of"
            else if mx ≥ maxMatch then toString mn ++ " or more" ++ greed ++ " occurrences of"
            else if mn = 0 then
              (if mx = 1 then "up to " ++ toString mx ++ greed ++ " occurrence of"
               else "up to " ++ toString mx ++ greed ++ " occurrences of")
            else
              "between " ++ toString mn ++ " and " ++ toString mx ++ greed ++ " occurrences of"
          match translateGroup n none r with
          | .error e => .error e
          | .ok g => .ok (.text leadin "" "" "" g.1, g.2)
  | _ + 1, _, _, _ => .error "ValueError"

/-- `regex_in(lexemes, tree, delegate)`: consume the start marker, test
the next raw element for the negation marker (the lazy subset has not
consumed anything yet; `tree.prev()` pushes a non-marker back), then
translate the set members with delegate `'set'`.  A single-member set
collapses; with negation active, a member that is a known category
phrase is replaced by its complement.  (A lone `start_grouping` with
nothing after it would raise `StopIteration`; a non-string single
member would raise `TypeError` in `concat`.) -/
def regexIn : Nat → List String → List String → Option String →
    Except String (Frag × List String)
  | 0, _, _, _ => .error "insufficient fuel"
  | _ + 1, _, ["start_grouping 0"], _ => .error "StopIteration"
  | n + 1, _, "start_grouping 0" :: "negate None" :: r2, _ => do
    let g ← translateGroup n (some "set") r2
    if g.1.length < 2 then
      match g.1 with
      | [] => .error "IndexError"
      | .str s :: _ =>
        if categoryValues.contains s then
          match categoryComplements s with
          | some comp => .ok (.str comp, g.2)
          | none => .error "KeyError"
        else .ok (.str ("any character except " ++ s), g.2)
      | _ :: _ => .error "TypeError"
    else .ok (.text "any character except one of the following" "" "" "or" g.1, g.2)
  | n + 1, _, "start_grouping 0" :: item :: r2, _ => do
    let g ← translateGroup n (some "set") (item :: r2)
    if g.1.length < 2 then
      match g.1 with
      | [] => .error "IndexError"
      | .str s :: _ => .ok (.str s, g.2)
      | _ :: _ => .error "TypeError"
    else .ok (.text "one of the following" "" "" "or" g.1, g.2)
  | _ + 1, _, _, _ => .error "ValueError"

/-- `regex_not_literal(lexemes, tree, delegate)`: un-optimise by
sending four fake elements (listed in reverse because `send` is
`extendleft`) and route to `regex_in`. -/
def regexNotLiteral : Nat → List String → List String → Option String →
    Except String (Frag × List String)
  | 0, _, _, _ => .error "insufficient fuel"
  | n + 1, lexemes, tree, delegate =>
    regexIn n ["in"]
      ("start_grouping 0" :: "negate None" :: ("literal " ++ lexemes.getD 1 "") ::
        "end_grouping 0" :: tree) delegate

/-- `regex_subpattern(lexemes, tree, delegate)`: an unnamed subgroup
peeks at the next element and delegates a `groupref_exists` directly;
otherwise the peeked element is pushed back (`tree.prev()`) and the
group is wrapped with the appropriate intro. -/
def regexSubpattern : Nat → List String → List String → Option String →
    Except String (Frag × List String)
  | 0, _, _, _ => .error "insufficient fuel"
  | n + 1, lexemes, "start_grouping 0" :: r, delegate =>
    let name := lexemes.getD 1 ""
    if name = "None" then
      match r with
      | [] => .error "StopIteration"
      | nextElem :: r2 =>
        if (pySplit nextElem).getD 0 "" = "groupref_exists" then
          regexGrouprefExists n (pySplit nextElem) r2 delegate
        else do
          let g ← translateGroup n none (nextElem :: r2)
          .ok (.text "a non-captured subgroup consisting of" "" "" "" g.1, g.2)
    else do
      let g ← translateGroup n none r
      .ok (.text ("subgroup #" ++ name ++ ", consisting of") "" "" "" g.1, g.2)
  | _ + 1, _, _, _ => .error "ValueError"

/-- `regex_assert(lexemes, tree, delegate)`. -/
def regexAssert : Nat → List String → List String → Option String →
    Except String (Frag × List String)
  | 0, _, _, _ => .error "insufficient fuel"
  | n + 1, lexemes, "start_grouping 0" :: r, _ =>
    let positivity := if lexemes.getD 0 "" = "assert" then "" else "not "
    let direction :=
      if lexemes.getD 1 "" = "1" then "we could " ++ positivity ++ "now match"
      else "we could " ++ positivity ++ "have just matched"
    do
      let g ← translateGroup n none r
      .ok (.text ("(if " ++ direction) ")" "" "" g.1, g.2)
  | _ + 1, _, _, _ => .error "ValueError"

/-- `regex_branch(lexemes, tree, delegate)`. -/
def regexBranch : Nat → List String → List String → Option String →
    Except String (Frag × List String)
  | 0, _, _, _ => .error "insufficient fuel"
  | n + 1, lexemes, "start_grouping 0" :: r, _ => do
    let g ← translateGroup n none r
    .ok (.text (if lexemes.getD 0 "" = "branch" then "either" else "or") "" "" "" g.1, g.2)
  | _ + 1, _, _, _ => .error "ValueError"

/-- `regex_groupref_exists(lexemes, tree, delegate)`. -/
def regexGrouprefExists : Nat → List String → List String → Option String →
    Except String (Frag × List String)
  | 0, _, _, _ => .error "insufficient fuel"
  | n + 1, lexemes, "start_grouping 0" :: r, _ => do
    let g ← translateGroup n none r
    .ok (.text ("the subgroup (only if group #" ++ lexemes.getD 1 "" ++ " was found earlier)")
      "" "" "" g.1, g.2)
  | _ + 1, _, _, _ => .error "ValueError"

end

/-! ## Tree nodes (`tree.py`)

Nodes are identified by naturals; a state holds every node's `_parent`
slot and `children` list.  The mutually recursive Python calls between
`Node.add`, `Node.remove` and the `parent` setter always bottom out in
the setter's `pass` branch after one round trip, so each operation
below is the flattened net effect of its Python counterpart, with the
intermediate update spelled out where the setter recursion fires. -/

structure TreeState where
  parent : Nat → Option Nat
  children : Nat → List Nat

/-- `a`'s parent edge: `b` is the `_parent` of `a`. -/
def stepOf (st : TreeState) (a b : Nat) : Prop := st.parent a = some b

/-- No node is its own proper ancestor. -/
def Acyclic (st : TreeState) : Prop := ∀ n, ¬ Relation.TransGen (stepOf st) n n

/-- Membership in a children list implies the matching parent slot. -/
def WellFormed (st : TreeState) : Prop := ∀ n q, n ∈ st.children q → st.parent n = some q

/-- A set parent slot implies membership in that parent's children. -/
def ParentInChildren (st : TreeState) : Prop :=
  ∀ n q, st.parent n = some q → n ∈ st.children q

/-- No children list repeats a node. -/
def NodupChildren (st : TreeState) : Prop := ∀ q, (st.children q).Nodup

/-- The `Node.parent` property setter.  `pass` when the new parent is
the current one; on `None`, remove the node from its parent's children
(when present) and clear the slot; on a node `q`, detach from the old
parent first (`self._parent.remove(self)` — a `ValueError` if the state
is inconsistent and the node is missing from that children list), point
the slot at `q`, and let `q.add` append the node if absent (its inner
`parent` assignment hits the `pass` branch). -/
def setParent (st : TreeState) (n : Nat) (p : Option Nat) : Except String TreeState :=
  if p = st.parent n then .ok st
  else
    match p with
    | none =>
      match st.parent n with
      | none => .ok st
      | some q =>
        let ch := if n ∈ st.children q then
            (fun m => if m = q then (st.children q).erase n else st.children m)
          else st.children
        .ok ⟨fun m => if m = n then none else st.parent m, ch⟩
    | some q =>
      match st.parent n with
      | none =>
        .ok ⟨fun m => if m = n then some q else st.parent m,
          fun m => if m = q then
              (if n ∈ st.children q then st.children q else st.children q ++ [n])
            else st.children m⟩
      | some old =>
        if n ∈ st.children old then
          let ch1 := fun m => if m = old then (st.children old).erase n else st.children m
          .ok ⟨fun m => if m = n then some q else st.parent m,
            fun m => if m = q then (if n ∈ ch1 q then ch1 q else ch1 q ++ [n]) else ch1 m⟩
        else .error "tree.remove(x): x not in tree"

/-- `Node.add(node)`: append to `children` when absent, then
`node.parent = self`. -/
def addNode (st : TreeState) (self c : Nat) : Except String TreeState :=
  let st1 : TreeState :=
    ⟨st.parent,
     fun m => if m = self then
         (if c ∈ st.children self then st.children self else st.children self ++ [c])
       else st.children m⟩
  setParent st1 c (some self)

/-- `Node.remove(node)`: drop from `children` (a `ValueError` when
absent), then `node.parent = None`. -/
def removeNode (st : TreeState) (self c : Nat) : Except String TreeState :=
  if c ∈ st.children self then
    setParent
      ⟨st.parent, fun m => if m = self then (st.children self).erase c else st.children m⟩
      c none
  else .error "tree.remove(x): x not in tree"

/-- `Node.detach()`: `self.parent = None`. -/
def detachNode (st : TreeState) (n : Nat) : Except String TreeState := setParent st n none

/-- `Node.replace(child, adoptee)`: find the child's index (a
`ValueError` when absent), clear its parent, insert the adoptee at that
index, and reparent the adoptee. -/
def replaceNode (st : TreeState) (self child adoptee : Nat) : Except String TreeState := do
  match (st.children self).indexOf? child with
  | none => .error "ValueError"
  | some age =>
    let st1 ← setParent st child none
    let st2 : TreeState :=
      ⟨st1.parent, fun m => if m = self then (st1.children self).insertIdx age adoptee
        else st1.children m⟩
    setParent st2 adoptee (some self)

/-- The state with no nodes linked at all. -/
def emptyTree : TreeState := ⟨fun _ => none, fun _ => []⟩

/-! ## Theorems about the Politer -/

theorem Politer.pull_obtainable {α : Type} {st : Politer α} {x : α} {st' : Politer α}
    (h : pull st = some (x, st')) : obtainable st = x :: obtainable st' := by
  obtain ⟨src, vals, pv⟩ := st
  cases vals with
  | cons v rest => simp [pull] at h; simp [obtainable, h.1, ← h.2]
  | nil =>
    cases src with
    | nil => simp [pull] at h
    | cons v rest => simp [pull] at h; simp [obtainable, h.1, ← h.2]

theorem Politer.pull_none_iff {α : Type} {st : Politer α} :
    pull st = none ↔ obtainable st = [] := by
  obtain ⟨src, vals, pv⟩ := st
  cases vals with
  | cons v rest => simp [pull, obtainable]
  | nil => cases src <;> simp [pull, obtainable]

theorem Politer.pullN_fst_take {α : Type} (k : Nat) (st : Politer α) :
    (pullN k st).1 = (obtainable st).take k := by
  induction k generalizing st with
  | zero => simp [pullN]
  | succ n ih =>
    match h : pull st with
    | none =>
      have hobt := pull_none_iff.mp h
      simp [pullN, h, hobt]
    | some (x, st') =>
      have hobt := pull_obtainable h
      simp [pullN, h, hobt, ih]

theorem Politer.pullN_prefix {α : Type} (xs : List α) :
    ∀ (vals src : List α) (pv : Option α),
      (pullN xs.length ⟨src, xs ++ vals, pv⟩).1 = xs ∧
      (pullN xs.length ⟨src, xs ++ vals, pv⟩).2.values = vals ∧
      (pullN xs.length ⟨src, xs ++ vals, pv⟩).2.source = src := by
  induction xs with
  | nil => intro vals src pv; simp [pullN]
  | cons x xs ih =>
    intro vals src pv
    have := ih vals src (some x)
    simp [pullN, pull, this]

/-! ## Claims C1, C5, C7 -/

/-- C1 (amended): `send` is last-in-first-out.  After `send(v1, …, vn)`
the next `n` pulls return `vn, …, v1` — the reverse of the call order —
before any new value is pulled from the source; those pulls leave the
previously buffered values and the source untouched, so only after them
does pulling resume the buffer and then the source. -/
theorem politer_send_lifo {α : Type} (vs : List α) (st : Politer α) :
    (Politer.pullN vs.length (Politer.send vs st)).1 = vs.reverse ∧
    (Politer.pullN vs.length (Politer.send vs st)).2.values = st.values ∧
    (Politer.pullN vs.length (Politer.send vs st)).2.source = st.source := by
  have h := Politer.pullN_prefix vs.reverse st.values st.source st.previous
  rw [List.length_reverse] at h
  simpa [Politer.send] using h

/-- C1 counterexample: the claim as stated fails.  After `send(1, 2)` on
an exhausted politer the next two pulls return `2, 1`, not `1, 2`. -/
theorem politer_send_call_order_counterexample :
    (Politer.pullN 2 (Politer.send [1, 2] (Politer.ofIterable ([] : List Nat)))).1 = [2, 1] ∧
    [2, 1] ≠ ([1, 2] : List Nat) := by
  constructor
  · rfl
  · decide

/-- C5: immediately after a successful pull that returned `x`, `prev()`
succeeds and the next pull returns `x` again; a second `prev()` without
an intervening pull fails with the no-previous-value error, as does
`prev()` on a freshly created politer before any pull. -/
theorem politer_rewind_spec {α : Type} (st st1 : Politer α) (x : α)
    (h : Politer.pull st = some (x, st1)) :
    ∃ st2, Politer.prev st1 = .ok st2 ∧
      (∃ st3, Politer.pull st2 = some (x, st3)) ∧
      Politer.prev st2 = .error "politer.prev() is not repeatable" ∧
      ∀ (src : List α),
        Politer.prev (Politer.ofIterable src) = .error "politer.prev() is not repeatable" := by
  have hprev : st1.previous = some x := by
    obtain ⟨src, vals, pv⟩ := st
    cases vals with
    | cons v rest =>
      simp [Politer.pull] at h
      obtain ⟨h1, h2⟩ := h
      subst h2; simp [h1]
    | nil =>
      cases src with
      | nil => simp [Politer.pull] at h
      | cons v rest =>
        simp [Politer.pull] at h
        obtain ⟨h1, h2⟩ := h
        subst h2; simp [h1]
  refine ⟨⟨st1.source, x :: st1.values, none⟩, ?_, ⟨⟨st1.source, st1.values, some x⟩, rfl⟩, rfl, ?_⟩
  · simp [Politer.prev, hprev]
  · intro src; rfl

/-- C5 witness: the politer over `[5]` at its first pull. -/
theorem politer_rewind_spec_witness :
    ∃ st2, Politer.prev (⟨[], [], some 5⟩ : Politer Nat) = .ok st2 ∧
      (∃ st3, Politer.pull st2 = some (5, st3)) ∧
      Politer.prev st2 = .error "politer.prev() is not repeatable" ∧
      ∀ (src : List Nat),
        Politer.prev (Politer.ofIterable src) = .error "politer.prev() is not repeatable" :=
  politer_rewind_spec (Politer.ofIterable [5]) ⟨[], [], some 5⟩ 5 rfl

theorem takeWhile_eq_of_boundary {α : Type} (p : α → Bool) (pre : List α) (x : α)
    (rest : List α) (hpre : ∀ y ∈ pre, p y = true) (hx : p x = false) :
    (pre ++ x :: rest).takeWhile p = pre := by
  induction pre with
  | nil => simp [List.takeWhile_cons, hx]
  | cons y t iht =>
    have hy : p y = true := hpre y (by simp)
    simp only [List.cons_append, List.takeWhile_cons, hy]
    rw [iht (fun z hz => hpre z (by simp [hz]))]
    simp

theorem takewhileLoop_spec {α : Type} (p : α → Bool) (pre : List α) (x : α) (rest : List α)
    (hpre : ∀ y ∈ pre, p y = true) (hx : p x = false) :
    ∀ (st : Politer α) (saved : Option α) (acc : List α),
      Politer.obtainable st = pre ++ x :: rest →
      ∃ st', Politer.takewhileLoop p st saved acc = .ok (acc ++ pre, st') ∧
        Politer.obtainable st' = x :: rest ∧
        ∃ st'', Politer.pull st' = some (x, st'') := by
  induction pre with
  | nil =>
    intro st saved acc hobt
    obtain ⟨src, vals, pv⟩ := st
    simp only [Politer.obtainable, List.nil_append] at hobt
    cases vals with
    | cons v t =>
      obtain ⟨heq, hrest⟩ : v = x ∧ t ++ src = rest := by simpa using hobt
      subst heq
      refine ⟨⟨src, v :: t, saved⟩, ?_, ?_, ⟨⟨src, t, some v⟩, rfl⟩⟩
      · simp [Politer.takewhileLoop, hx]
      · simp [Politer.obtainable, hrest]
    | nil =>
      simp only [List.nil_append] at hobt
      subst hobt
      refine ⟨⟨rest, [x], saved⟩, ?_, ?_, ⟨⟨rest, [], some x⟩, rfl⟩⟩
      · simp [Politer.takewhileLoop, hx]
      · simp [Politer.obtainable]
  | cons y pre ih =>
    intro st saved acc hobt
    have hy : p y = true := hpre y (by simp)
    have hpre' : ∀ z ∈ pre, p z = true := fun z hz => hpre z (by simp [hz])
    obtain ⟨src, vals, pv⟩ := st
    simp only [Politer.obtainable] at hobt
    cases vals with
    | cons v t =>
      obtain ⟨heq, hrest⟩ : v = y ∧ t ++ src = pre ++ x :: rest := by simpa using hobt
      obtain ⟨st', h1, h2, h3⟩ :=
        ih hpre' ⟨src, t, some v⟩ (some v) (acc ++ [v]) (by simpa [Politer.obtainable] using hrest)
      refine ⟨st', ?_, h2, h3⟩
      simpa [Politer.takewhileLoop, heq, hy] using h1
    | nil =>
      simp only [List.nil_append] at hobt
      subst hobt
      obtain ⟨st', h1, h2, h3⟩ :=
        ih hpre' ⟨pre ++ x :: rest, [], some y⟩ (some y) (acc ++ [y])
          (by simp [Politer.obtainable])
      refine ⟨st', ?_, h2, h3⟩
      simpa [Politer.takewhileLoop, hy] using h1

/-- C2: when some remaining element fails the predicate, `takewhile`
yields exactly the maximal prefix of elements satisfying it, and the
first failing element is pushed back rather than discarded: the pull
immediately following the sub-sequence returns that boundary element. -/
theorem politer_takewhile_boundary {α : Type} (p : α → Bool) (st : Politer α)
    (pre : List α) (x : α) (rest : List α)
    (hsplit : Politer.obtainable st = pre ++ x :: rest)
    (hpre : ∀ y ∈ pre, p y = true) (hx : p x = false) :
    ∃ st', Politer.takewhile st p = .ok (pre, st') ∧
      pre = (Politer.obtainable st).takeWhile p ∧
      Politer.obtainable st' = x :: rest ∧
      ∃ st'', Politer.pull st' = some (x, st'') := by
  obtain ⟨st', h1, h2, h3⟩ := takewhileLoop_spec p pre x rest hpre hx st none [] hsplit
  refine ⟨st', by simpa [Politer.takewhile] using h1, ?_, h2, h3⟩
  rw [hsplit, takeWhile_eq_of_boundary p pre x rest hpre hx]

/-- C2 witness: `takeuntil(isLetter)` over the source `[1, 2, "a", 3]`
yields `1, 2`, and the following pull returns `"a"`. -/
theorem politer_takewhile_boundary_witness :
    ∃ st', Politer.takewhile (Politer.ofIterable [Val.int 1, Val.int 2, Val.str "a", Val.int 3])
        (fun v => ! isLetter v) = .ok ([Val.int 1, Val.int 2], st') ∧
      [Val.int 1, Val.int 2] =
        (Politer.obtainable
          (Politer.ofIterable [Val.int 1, Val.int 2, Val.str "a", Val.int 3])).takeWhile
          (fun v => ! isLetter v) ∧
      Politer.obtainable st' = [Val.str "a", Val.int 3] ∧
      ∃ st'', Politer.pull st' = some (Val.str "a", st'') :=
  politer_takewhile_boundary (fun v => ! isLetter v)
    (Politer.ofIterable [Val.int 1, Val.int 2, Val.str "a", Val.int 3])
    [Val.int 1, Val.int 2] (Val.str "a") [Val.int 3] rfl (by decide) rfl

/-- C7: `length()` returns the count of all remaining obtainable values
(buffer plus source) and discards nothing: every subsequent run of pulls
yields exactly the same values, in the same order, as without the
`length()` call. -/
theorem politer_length_nondestructive {α : Type} (st : Politer α) :
    (Politer.len st).1 = st.values.length + st.source.length ∧
    Politer.obtainable (Politer.len st).2 = Politer.obtainable st ∧
    ∀ k, (Politer.pullN k (Politer.len st).2).1 = (Politer.pullN k st).1 := by
  refine ⟨by simp [Politer.len, Politer.dump], by simp [Politer.len, Politer.dump, Politer.obtainable], ?_⟩
  intro k
  rw [Politer.pullN_fst_take, Politer.pullN_fst_take]
  simp [Politer.len, Politer.dump, Politer.obtainable]

/-! ## Claims C3, C10: the prose renderer -/

theorem renderTail_leaves (ind : Nat) (subord' lastPfx outro : String)
    (mid : List String) (lastI : String) :
    renderTail ind subord' lastPfx outro ((mid ++ [lastI]).map Frag.str) =
      (mid.map (fun m => clean ind ("* " ++ subord' ++ m ++ ","))).flatten ++
        clean ind ("* " ++ lastPfx ++ lastI ++ outro) := by
  induction mid with
  | nil => simp [renderTail, renderBullet]
  | cons m mid ih =>
    obtain ⟨q, qs, hqs⟩ : ∃ q qs, (mid ++ [lastI]).map Frag.str = Frag.str q :: qs := by
      cases mid <;> simp
    simp only [List.cons_append, List.map_cons, hqs, renderTail]
    rw [← hqs, ih]
    simp [renderBullet]

/-- C3 (amended): `collapsible()` is true exactly when the list is
empty, or its first item is a nested list that is itself recursively
collapsible (regardless of any further items; `InlineList`s always
count as collapsible), or the list holds exactly one leaf string.  A
collapsible singleton leaf renders inline as `"<intro> <item><outro>"`.
A list of two or more leaf items renders as the intro line terminated
with `":"` followed by one bulleted, wrapped line group per item, the
non-final items suffixed with a comma (middle ones prefixed with the
subordinating conjunction), the final item prefixed with the
coordinating conjunction (falling back to the subordinating one) and
suffixed with the outro. -/
theorem textlist_collapsible_render (intro outro subord coord s x lastI : String)
    (mid : List String) (items : List Frag) (hintro : intro ≠ "") :
    (collapsibleL items = true ↔ collapsibleSpec items) ∧
    collapseL intro outro [Frag.str s] = intro ++ " " ++ s ++ outro ∧
    renderL 0 intro outro subord coord (Frag.str x :: (mid ++ [lastI]).map Frag.str) =
      clean 0 (intro ++ ":") ++ clean 2 ("* " ++ x ++ ",") ++
      (mid.map (fun m => clean 2 ("* " ++ concatIf subord " " ++ m ++ ","))).flatten ++
      clean 2 ("* " ++
        (if concatIf coord " " = "" then concatIf subord " " else concatIf coord " ") ++
        lastI ++ outro) := by
  refine ⟨?_, ?_, ?_⟩
  · cases items with
    | nil => simp [collapsibleL, collapsibleSpec]
    | cons f rest =>
      cases f with
      | str a => cases rest <;> simp [collapsibleL, collapsibleSpec]
      | text i o sb c sub => simp [collapsibleL, collapsibleSpec]
      | inl i o sb c its => simp [collapsibleL, collapsibleSpec]
  · have h1 : concatIf intro " " = intro ++ " " := by simp [concatIf, hintro]
    simp [collapseL, collapseF, h1]
  · obtain ⟨q, qs, hqs⟩ : ∃ q qs, (mid ++ [lastI]).map Frag.str = Frag.str q :: qs := by
      cases mid <;> simp
    have hcol : collapsibleL (Frag.str x :: Frag.str q :: qs) = false := by
      simp [collapsibleL]
    rw [hqs]
    simp only [renderL, hcol, Bool.false_eq_true, if_false, renderBody, hintro, ne_eq,
      not_false_iff, ite_true]
    rw [← hqs, renderTail_leaves]
    have hx : "* " ++ "" ++ x ++ "," = "* " ++ x ++ "," := rfl
    simp [renderBullet, hx]

/-- C3 counterexample: the claim's biconditional fails.  A `TextList`
over two items whose first item is a collapsible nested list reports
`collapsible() = True` (the source never checks the item count in that
branch), and rendering it collapses to the first item alone, silently
discarding the second — not an intro line plus bullets. -/
theorem textlist_collapsible_counterexample :
    collapsibleL [Frag.text "" "" "" "" [Frag.str "a"], Frag.str "b"] = true ∧
    [Frag.text "" "" "" "" [Frag.str "a"], Frag.str "b"].length = 2 ∧
    strTL "" "" "" "" [Frag.text "" "" "" "" [Frag.str "a"], Frag.str "b"] = "a" := by
  refine ⟨by simp [collapsibleL], rfl, ?_⟩
  simp [strTL, collapsibleL, collapseL, collapseF, concatIf, clean, pyWrap, pySplit, wordsGo,
    wrapGo, joinLines]

/-- C3 witness: with intro `"it contains"`, outro `"."`, coordinating
conjunction `"and"`: the singleton `["z"]` collapses to
`"it contains z."`, and the two-item list `["x", "y"]` renders as the
intro line plus two bulleted lines. -/
theorem textlist_collapsible_render_witness :
    ("it contains" ≠ "") ∧
    collapseL "it contains" "." [Frag.str "z"] = "it contains z." ∧
    renderL 0 "it contains" "." "" "and" [Frag.str "x", Frag.str "y"] =
      ["it contains:", "  * x,", "  * and y."] := by
  have h := textlist_collapsible_render "it contains" "." "" "and" "z" "x" "y" [] []
    (by decide)
  exact ⟨by decide, h.2.1.trans (by decide), h.2.2.trans (by decide)⟩

/-- C10: a `TextList` over an empty item sequence is collapsible, its
`collapse()` returns the empty string (before the intro or outro are
ever consulted), and `str()` produces empty output, whatever intro,
outro and conjunctions were configured. -/
theorem textlist_empty_render (intro outro subord coord : String) :
    collapsibleL [] = true ∧ collapseL intro outro [] = "" ∧
    strTL intro outro subord coord [] = "" := by
  refine ⟨by simp [collapsibleL], by simp [collapseL], ?_⟩
  simp [strTL, collapsibleL, collapseL, clean, pyWrap, pySplit, wordsGo, joinLines]

/-! ## Claims C4, C6, C8: the translation dispatcher -/

/-- C4: the handler for an unconsumed start-grouping marker scans to
the matching end marker, collects the skipped elements, removes the end
marker, yields the warning fragment and continues — but `send` is
`extendleft`, so the collected elements are pushed back REVERSED, not
in their original order.  Evaluated at the failing input
`['literal 97', 'literal 98', 'end_grouping 0', 'at at_end']`. -/
theorem unexpected_start_grouping_reversal :
    unexpectedStartGrouping ["literal 97", "literal 98", "end_grouping 0", "at at_end"] =
      (Frag.str "(warning, some elements may not appear correctly grouped)",
       ["literal 98", "literal 97", "at at_end"]) ∧
    ["literal 98", "literal 97"] ≠ ["literal 97", "literal 98"] := by
  exact ⟨rfl, by decide⟩

/-- C6: translating a repeat element over a single child group.  With
parsed `min`, `max` and the lazy flag (`min_repeat`): `min = max = 1`
returns the child's translation alone, with no wrapper phrase;
`min = max > 1` wraps the child in "N occurrences of"; `max` at least
the unbounded sentinel wraps in "N or more[ (non-greedy)] occurrences
of"; `min = 0` wraps in "up to M[ (non-greedy)] occurrence(s) of" with
number agreement; otherwise "between N and M[ (non-greedy)] occurrences
of". -/
theorem regex_repeat_spec (fuel : Nat) (w0 mnS mxS : String) (mn mx : Nat)
    (child : Frag) (gs rest : List String) (delegate : Option String)
    (hmn : pyInt mnS = some mn) (hmx : pyInt mxS = some mx)
    (hone : translateOne fuel none gs = .ok (some child, "end_grouping 0" :: rest))
    (hall : translateGroup fuel none gs = .ok ([child], rest)) :
    regexRepeat (fuel + 1) [w0, mnS, mxS] ("start_grouping 0" :: gs) delegate =
      .ok (if mn = mx ∧ mn = 1 then (child, "end_grouping 0" :: rest)
        else
          (Frag.text
            (if mn = mx then toString mn ++ " occurrences of"
             else if mx ≥ maxMatch then
               toString mn ++ " or more" ++
                 (if w0 = "min_repeat" then " (non-greedy)" else "") ++ " occurrences of"
             else if mn = 0 then
               (if mx = 1 then
                 "up to " ++ toString mx ++
                   (if w0 = "min_repeat" then " (non-greedy)" else "") ++ " occurrence of"
                else
                 "up to " ++ toString mx ++
                   (if w0 = "min_repeat" then " (non-greedy)" else "") ++ " occurrences of")
             else
               "between " ++ toString mn ++ " and " ++ toString mx ++
                 (if w0 = "min_repeat" then " (non-greedy)" else "") ++ " occurrences of")
            "" "" "" [child], rest)) := by
  by_cases h1 : mn = mx ∧ mn = 1
  · obtain ⟨h11, h12⟩ := h1
    subst h12
    subst h11
    simp [regexRepeat, hmn, hmx, hone]
  · simp [regexRepeat, hmn, hmx, hall, h1]

/-- C6 witness: `repeat(min=2, max=4, greedy)` over `literal('x')`
translates to "between 2 and 4 occurrences of" wrapping
`the character "x"`, and collapses to exactly
`between 2 and 4 occurrences of the character "x"`;
`repeat(min=1, max=1)` over `literal('a')` collapses to exactly
`the character "a"` with no wrapper. -/
theorem regex_repeat_spec_witness :
    pyInt "2" = some 2 ∧ pyInt "4" = some 4 ∧
    regexRepeat 11 ["max_repeat", "2", "4"]
      ("start_grouping 0" :: ["literal 120", "end_grouping 0"]) none =
      .ok (Frag.text "between 2 and 4 occurrences of" "" "" ""
        [Frag.str "the character \"x\""], []) ∧
    collapseF (Frag.text "between 2 and 4 occurrences of" "" "" ""
        [Frag.str "the character \"x\""]) =
      "between 2 and 4 occurrences of the character \"x\"" ∧
    regexRepeat 11 ["min_repeat", "1", "1"]
      ("start_grouping 0" :: ["literal 97", "end_grouping 0"]) none =
      .ok (Frag.str "the character \"a\"", ["end_grouping 0"]) := by
  refine ⟨rfl, rfl, ?_, by simp [collapseF, collapseL, concatIf], ?_⟩
  · exact (regex_repeat_spec 10 "max_repeat" "2" "4" 2 4 (Frag.str "the character \"x\"")
      ["literal 120", "end_grouping 0"] [] none rfl rfl rfl rfl).trans rfl
  · exact (regex_repeat_spec 10 "min_repeat" "1" "1" 1 1 (Frag.str "the character \"a\"")
      ["literal 97", "end_grouping 0"] [] none rfl rfl rfl rfl).trans rfl

/-- C8: a negated char-class whose translated member list has exactly
one member whose phrase is a known category phrase renders as the
complement category's phrase alone — each of the six category phrases
has a defined complement, and none of the results carries the
"any character except" wording. -/
theorem regex_in_complement (fuel : Nat) (phrase : String) (gs rest : List String)
    (delegate : Option String) (lexemes : List String)
    (hall : translateGroup fuel (some "set") gs = .ok ([Frag.str phrase], rest))
    (hcat : phrase ∈ categoryValues) :
    ∃ comp, categoryComplements phrase = some comp ∧
      regexIn (fuel + 1) lexemes ("start_grouping 0" :: "negate None" :: gs) delegate =
        .ok (Frag.str comp, rest) ∧
      comp ∈ categoryValues ∧
      comp ≠ "any character except " ++ phrase := by
  fin_cases hcat <;>
    exact ⟨_, rfl, by simp only [regexIn, hall]; rfl, by decide, by decide⟩

/-- C8 witness: the set `[^\w]` — a negation marker plus a single
`category(word)` member — renders as the non-word category phrase
`any non-alphanumeric character`, with no "except" construction. -/
theorem regex_in_complement_witness :
    translateGroup 10 (some "set") ["category category_word", "end_grouping 0"] =
      .ok ([Frag.str "any alphanumeric character or underscore"], []) ∧
    "any alphanumeric character or underscore" ∈ categoryValues ∧
    ∃ comp, categoryComplements "any alphanumeric character or underscore" = some comp ∧
      regexIn 11 ["in"]
        ("start_grouping 0" :: "negate None" :: ["category category_word", "end_grouping 0"])
        none = .ok (Frag.str comp, []) ∧
      comp ∈ categoryValues ∧
      comp ≠ "any character except " ++ "any alphanumeric character or underscore" :=
  ⟨rfl, by decide,
    regex_in_complement 10 "any alphanumeric character or underscore"
      ["category category_word", "end_grouping 0"] [] none ["in"] rfl (by decide)⟩

/-! ## Claim C9: the tree -/

theorem acyclic_update_parent (pf : Nat → Option Nat) (cN sN : Nat)
    (hac : ∀ n, ¬ Relation.TransGen (fun a b => pf a = some b) n n)
    (hne : sN ≠ cN)
    (hanc : ¬ Relation.TransGen (fun a b => pf a = some b) sN cN) :
    ∀ n, ¬ Relation.TransGen (fun a b => (if a = cN then some sN else pf a) = some b) n n := by
  intro m hm
  have hF : ∀ a b, Relation.TransGen
        (fun a b => (if a = cN then some sN else pf a) = some b) a b →
      Relation.TransGen (fun a b => pf a = some b) a b ∨
        (Relation.ReflTransGen
            (fun a b => (if a = cN then some sN else pf a) = some b) a cN ∧
         Relation.ReflTransGen
            (fun a b => (if a = cN then some sN else pf a) = some b) sN b) := by
    intro a b h
    induction h using Relation.TransGen.head_induction_on with
    | base h =>
      rename_i a0
      by_cases hc : a0 = cN
      · subst hc
        right
        have hb : sN = b := by simpa using h
        exact ⟨.refl, hb ▸ .refl⟩
      · left
        rw [if_neg hc] at h
        exact .single h
    | ih hstep htail ihr =>
      rename_i a0 k0
      by_cases hc : a0 = cN
      · subst hc
        right
        have hk : sN = k0 := by simpa using hstep
        subst hk
        exact ⟨.refl, htail.to_reflTransGen⟩
      · rcases ihr with hold | ⟨r1, r2⟩
        · rw [if_neg hc] at hstep
          exact Or.inl (hold.head hstep)
        · exact Or.inr ⟨r1.head hstep, r2⟩
  have hH : ∀ a, Relation.ReflTransGen
        (fun a b => (if a = cN then some sN else pf a) = some b) a cN →
      Relation.ReflTransGen (fun a b => pf a = some b) a cN := by
    intro a h
    induction h using Relation.ReflTransGen.head_induction_on with
    | refl => exact .refl
    | head hstep htail ihr =>
      rename_i a0 k0
      by_cases hc : a0 = cN
      · exact hc ▸ .refl
      · rw [if_neg hc] at hstep
        exact ihr.head hstep
  rcases hF m m hm with hold | ⟨r1, r2⟩
  · exact hac m hold
  · have r3 := hH sN (r2.trans r1)
    rcases r3.cases_head with heq | ⟨k, hk, hkc⟩
    · exact hne heq
    · exact hanc (Relation.TransGen.head' hk hkc)

theorem setParent_same (stX : TreeState) (n q : Nat) (h : stX.parent n = some q) :
    setParent stX n (some q) = .ok stX := by
  simp only [setParent]
  rw [h]
  simp

theorem setParent_fresh (stX : TreeState) (n q : Nat) (h : stX.parent n = none) :
    setParent stX n (some q) = .ok ⟨fun m => if m = n then some q else stX.parent m,
      fun m => if m = q then
          (if n ∈ stX.children q then stX.children q else stX.children q ++ [n])
        else stX.children m⟩ := by
  simp only [setParent]
  rw [h]
  rfl

theorem setParent_move (stX : TreeState) (n q old : Nat) (h : stX.parent n = some old)
    (hqo : q ≠ old) (hmem : n ∈ stX.children old) :
    setParent stX n (some q) = .ok ⟨fun m => if m = n then some q else stX.parent m,
      fun m => if m = q then
          (if n ∈ (if q = old then (stX.children old).erase n else stX.children q)
           then (if q = old then (stX.children old).erase n else stX.children q)
           else (if q = old then (stX.children old).erase n else stX.children q) ++ [n])
        else (if m = old then (stX.children old).erase n else stX.children m)⟩ := by
  simp only [setParent]
  rw [h]
  rw [if_neg (show (some q : Option Nat) ≠ some old by simpa using hqo)]
  simp [hmem]

theorem tree_add_derive (st st' : TreeState) (self c : Nat)
    (hwf : WellFormed st) (hpic : ParentInChildren st) (hac : Acyclic st)
    (hne : self ≠ c) (hanc : ¬ Relation.TransGen (stepOf st) self c)
    (hpar : st'.parent = fun m => if m = c then some self else st.parent m)
    (hch : ∀ n q, n ∈ st'.children q ↔
      (if q = self then (n ∈ st.children self ∨ n = c) else (n ∈ st.children q ∧ n ≠ c)))
    (hnd' : NodupChildren st') :
    st'.parent c = some self ∧
    (∀ q, q ≠ self → c ∉ st'.children q) ∧
    Acyclic st' ∧ WellFormed st' ∧ ParentInChildren st' ∧ NodupChildren st' := by
  refine ⟨by rw [hpar]; simp, ?_, ?_, ?_, ?_, hnd'⟩
  · intro q hq hcq
    rw [hch] at hcq
    simp [hq] at hcq
  · have hrel : stepOf st' = fun a b => (if a = c then some self else st.parent a) = some b := by
      funext a b
      simp only [stepOf, hpar]
    intro n
    rw [hrel]
    exact acyclic_update_parent st.parent c self hac hne hanc n
  · intro n q hn
    rw [hch] at hn
    rw [hpar]
    by_cases hq : q = self
    · simp only [hq, if_pos rfl] at hn ⊢
      by_cases hnc : n = c
      · simp [hnc]
      · simp only [if_neg hnc]
        rcases hn with hn2 | hn2
        · exact hwf n self hn2
        · exact absurd hn2 hnc
    · simp only [if_neg hq] at hn
      simp only [if_neg hn.2]
      exact hwf n q hn.1
  · intro n q hq
    rw [hpar] at hq
    rw [hch]
    by_cases hnc : n = c
    · simp only [hnc, if_pos rfl] at hq
      have hq2 : q = self := (Option.some.inj hq).symm
      simp [hq2, hnc]
    · simp only [if_neg hnc] at hq
      have hmem := hpic n q hq
      by_cases hq2 : q = self
      · simp [hq2] at hmem ⊢
        exact Or.inl hmem
      · simp [hq2, hmem, hnc]

/-- C9 (amended): under the no-cycle precondition — the added child is
neither the target node itself nor an ancestor of it — `add` preserves
acyclicity, and it first detaches the child from any previous parent:
afterwards the child's parent slot points at the target, the child sits
in no other node's children list (at most one parent at a time), and
well-formedness and duplicate-freeness of the children lists are
preserved. -/
theorem tree_add_preserves (st : TreeState) (self c : Nat)
    (hwf : WellFormed st) (hpic : ParentInChildren st) (hnd : NodupChildren st)
    (hac : Acyclic st) (hne : self ≠ c)
    (hanc : ¬ Relation.TransGen (stepOf st) self c) :
    ∃ st', addNode st self c = .ok st' ∧
      st'.parent c = some self ∧
      (∀ q, q ≠ self → c ∉ st'.children q) ∧
      Acyclic st' ∧ WellFormed st' ∧ ParentInChildren st' ∧ NodupChildren st' := by
  have hAiff : ∀ n, (n ∈ (if c ∈ st.children self then st.children self
        else st.children self ++ [c])) ↔ (n ∈ st.children self ∨ n = c) := by
    intro n
    by_cases hmem : c ∈ st.children self
    · simp only [if_pos hmem]
      constructor
      · exact Or.inl
      · rintro (h | rfl)
        · exact h
        · exact hmem
    · simp [if_neg hmem]
  have hcA : c ∈ (if c ∈ st.children self then st.children self
      else st.children self ++ [c]) := (hAiff c).mpr (Or.inr rfl)
  have hAnodup : (if c ∈ st.children self then st.children self
      else st.children self ++ [c]).Nodup := by
    by_cases hmem : c ∈ st.children self
    · simpa [hmem] using hnd self
    · simp [hmem, List.nodup_append, hnd self]
  rcases hpc : st.parent c with _ | old
  · -- the child had no parent: setParent takes the fresh branch
    have heq := setParent_fresh
      ⟨st.parent, fun m => if m = self then
          (if c ∈ st.children self then st.children self else st.children self ++ [c])
        else st.children m⟩ c self hpc
    refine ⟨_, heq, ?_⟩
    refine tree_add_derive st _ self c hwf hpic hac hne hanc rfl ?_ ?_
    · intro n q
      by_cases hq : q = self
      · simp only [hq]
        simp only [eq_self_iff_true, if_true, hcA]
        exact hAiff n
      · simp only [if_neg hq]
        constructor
        · intro hn
          refine ⟨hn, ?_⟩
          intro hnc
          rw [hnc] at hn
          rw [hwf c q hn] at hpc
          simp at hpc
        · exact fun h => h.1
    · intro q
      by_cases hq : q = self
      · simp only [hq]
        simpa [hcA] using hAnodup
      · simpa [hq] using hnd q
  · by_cases hos : old = self
    · -- the child is already parented at self: setParent passes
      have heq := setParent_same
        ⟨st.parent, fun m => if m = self then
            (if c ∈ st.children self then st.children self else st.children self ++ [c])
          else st.children m⟩ c self (by rw [← hos] at *; exact hpc)
      refine ⟨_, heq, ?_⟩
      refine tree_add_derive st _ self c hwf hpic hac hne hanc ?_ ?_ ?_
      · funext m
        by_cases hm : m = c
        · rw [hm]
          simp only [if_pos rfl]
          rw [hpc, hos]
          simp
        · simp [hm]
      · intro n q
        by_cases hq : q = self
        · simp only [hq]
          simp only [eq_self_iff_true, if_true]
          exact hAiff n
        · simp only [if_neg hq]
          constructor
          · intro hn
            refine ⟨hn, ?_⟩
            intro hnc
            rw [hnc] at hn
            rw [hwf c q hn] at hpc
            exact hq ((Option.some.inj hpc).trans hos)
          · exact fun h => h.1
      · intro q
        by_cases hq : q = self
        · simp only [hq]
          simpa using hAnodup
        · simpa [hq] using hnd q
    · -- the child moves away from a different old parent
      have hco : c ∈ st.children old := hpic c old hpc
      have heq := setParent_move
        ⟨st.parent, fun m => if m = self then
            (if c ∈ st.children self then st.children self else st.children self ++ [c])
          else st.children m⟩ c self old hpc (fun h => hos h.symm)
        (by simpa [hos] using hco)
      refine ⟨_, heq, ?_⟩
      refine tree_add_derive st _ self c hwf hpic hac hne hanc rfl ?_ ?_
      · intro n q
        by_cases hq : q = self
        · simp only [hq]
          simp only [eq_self_iff_true, if_true, if_neg hos, if_neg (Ne.symm hos)]
          simp only [hcA, if_pos, if_true]
          exact hAiff n
        · by_cases hqo : q = old
          · simp only [hqo, if_neg (hqo ▸ hq), eq_self_iff_true, if_true, if_neg hos]
            rw [(hnd old).mem_erase_iff]
            exact ⟨fun h => ⟨h.2, h.1⟩, fun h => ⟨h.2, h.1⟩⟩
          · simp only [if_neg hq, if_neg hqo]
            constructor
            · intro hn
              refine ⟨hn, ?_⟩
              intro hnc
              rw [hnc] at hn
              rw [hwf c q hn] at hpc
              exact hqo (Option.some.inj hpc)
            · exact fun h => h.1
      · intro q
        by_cases hq : q = self
        · simp only [hq]
          simpa [Ne.symm hos, hcA] using hAnodup
        · by_cases hqo : q = old
          · simp only [hqo]
            simpa [hq, hqo ▸ hq, hos] using (hnd old).erase c
          · simpa [hq, hqo] using hnd q

/-- C9 counterexample: the operations themselves never check for
cycles.  Starting from unlinked nodes, `n1.add(n2)` followed by
`n2.add(n1)` succeeds and leaves `n1` and `n2` each other's parents, so
`n1` is its own proper ancestor — refuting the claim that the structure
stays acyclic under every operation sequence. -/
theorem tree_cycle_counterexample :
    ∃ st1 st2, addNode emptyTree 1 2 = .ok st1 ∧ addNode st1 2 1 = .ok st2 ∧
      st2.parent 1 = some 2 ∧ st2.parent 2 = some 1 ∧
      Relation.TransGen (stepOf st2) 1 1 :=
  ⟨_, _, rfl, rfl, rfl, rfl,
    Relation.TransGen.head rfl (Relation.TransGen.single rfl)⟩

/-- C9 witness: adding node 2 under node 1 in the empty state satisfies
every hypothesis of the amended theorem and produces a well-formed
acyclic state with `parent 2 = 1`. -/
theorem tree_add_preserves_witness :
    WellFormed emptyTree ∧ ParentInChildren emptyTree ∧ NodupChildren emptyTree ∧
    Acyclic emptyTree ∧ (1 : Nat) ≠ 2 ∧ ¬ Relation.TransGen (stepOf emptyTree) 1 2 ∧
    ∃ st', addNode emptyTree 1 2 = .ok st' ∧ st'.parent 2 = some 1 ∧
      (∀ q, q ≠ 1 → 2 ∉ st'.children q) ∧ Acyclic st' ∧ WellFormed st' ∧
      ParentInChildren st' ∧ NodupChildren st' := by
  have hniltrans : ∀ a b : Nat, ¬ Relation.TransGen (stepOf emptyTree) a b := by
    intro a b h
    cases h with
    | single h => simp [stepOf, emptyTree] at h
    | tail h1 h2 => simp [stepOf, emptyTree] at h2
  have hwf : WellFormed emptyTree := by intro n q h; simp [emptyTree] at h
  have hpic : ParentInChildren emptyTree := by intro n q h; simp [emptyTree] at h
  have hnd : NodupChildren emptyTree := by intro q; simp [emptyTree]
  have hac : Acyclic emptyTree := fun n => hniltrans n n
  exact ⟨hwf, hpic, hnd, hac, by decide, hniltrans 1 2,
    tree_add_preserves emptyTree 1 2 hwf hpic hnd hac (by decide) (hniltrans 1 2)⟩
